import Mathlib

/-!
Verification of the algebraic core of `bitcoin-rs`: finite-field elements
(`src/finite_fields/mod.rs`) and the elliptic-curve group law with its two
scalar-multiplication algorithms (`src/elliptic_curve`).

Machine integers (`U256` in the source) are embedded as `ℕ`: the spec places
the big-integer primitive's own overflow behaviour out of scope, so arithmetic
is modelled in an unbounded unsigned domain.  A Rust `assert!` failure (panic)
is embedded as `none`: fallible constructors return `Option`/`Except` values.
-/

namespace BitcoinRs

/-! ### Field elements: embedding of `src/src/finite_fields/mod.rs` -/

/-- Modelled from the spec: the `Modulo` helper of the missing
`finite_fields/modulo.rs` submodule, reduction of a value modulo the prime. -/
def modulo (a p : ℕ) : ℕ := a % p

/-- The `Felt` struct: a residue `inner` together with the field modulus
`prime`. -/
structure Felt where
  inner : ℕ
  prime : ℕ
deriving DecidableEq, Repr

/-- The `Felt::new` constructor: asserts `inner < prime` (a failed assertion,
i.e. a panic, is modelled as `none`). -/
def Felt.new (inner prime : ℕ) : Option Felt :=
  if inner < prime then some ⟨inner, prime⟩ else none

/-- The `impl Add for Felt`: `(self.inner + rhs.inner).modulo(&self.prime)`,
then `Felt::new`. -/
def Felt.add (a b : Felt) : Option Felt :=
  Felt.new (modulo (a.inner + b.inner) a.prime) a.prime

/-- The `impl Sub for Felt`: if `self.inner > rhs.inner` then
`self.inner - rhs.inner` else `self.prime - (rhs.inner - self.inner)`,
then `Felt::new`.  Note the strict comparison of the source. -/
def Felt.sub (a b : Felt) : Option Felt :=
  Felt.new (if b.inner < a.inner then a.inner - b.inner
            else a.prime - (b.inner - a.inner)) a.prime

/-- The `impl Mul for Felt`: `(self.inner * rhs.inner).modulo(&self.prime)`,
then `Felt::new`. -/
def Felt.mul (a b : Felt) : Option Felt :=
  Felt.new (modulo (a.inner * b.inner) a.prime) a.prime

/-- The `impl Div for Felt`: `(self.inner * rhs.inner.pow(prime - 2))
.modulo(&self.prime)`, then `Felt::new`. -/
def Felt.div (a b : Felt) : Option Felt :=
  Felt.new (modulo (a.inner * b.inner ^ (a.prime - 2)) a.prime) a.prime

/-- The `impl Pow<u32> for Felt`: the exponent is first reduced modulo the
prime, then `self.inner.pow(exponent).modulo(&self.prime)`. -/
def Felt.powU32 (a : Felt) (e : ℕ) : Option Felt :=
  Felt.new (modulo (a.inner ^ modulo e a.prime) a.prime) a.prime

/-- The `impl Pow<i64> for Felt`: a positive exponent is used directly; a
non-positive exponent `e` is replaced by `(prime - 1) - |e|` (the Fermat
reduction in the multiplicative group of order `prime - 1`). -/
def Felt.powI64 (a : Felt) (e : ℤ) : Option Felt :=
  if 0 < e then
    Felt.new (modulo (a.inner ^ e.toNat) a.prime) a.prime
  else
    Felt.new (modulo (a.inner ^ (a.prime - 1 - e.natAbs)) a.prime) a.prime

/-- Any `Felt` produced by `Felt.new` satisfies the representation invariant. -/
lemma Felt.new_some {i p : ℕ} {f : Felt} (h : Felt.new i p = some f) :
    f.inner < f.prime := by
  unfold Felt.new at h
  split at h
  · cases h
    assumption
  · cases h

/-- When the candidate inner value is already reduced, `Felt.new` succeeds. -/
lemma Felt.new_of_lt {i p : ℕ} (h : i < p) : Felt.new i p = some ⟨i, p⟩ := by
  unfold Felt.new
  exact if_pos h

/-! ### Claims C2, C3, C4, C5, C8, C9, C10: finite-field arithmetic -/

/-- Claim C9: for field elements sharing a prime, addition returns the element
whose inner value is `(a.inner + b.inner) % prime`; in the unbounded-natural
embedding of the integer primitive the intermediate sum cannot silently
overflow. -/
theorem felt_add_correct (a b : Felt) (ha : a.inner < a.prime)
    (hb : b.inner < b.prime) (hpr : a.prime = b.prime) :
    Felt.add a b = some ⟨(a.inner + b.inner) % a.prime, a.prime⟩ := by
  have hp : 0 < a.prime := Nat.pos_of_ne_zero (by omega)
  exact Felt.new_of_lt (Nat.mod_lt _ hp)

/-- Witness for C9: `11 + 17 = 9` in `GF(19)`, as in the repository's
`test_add_sub`. -/
theorem felt_add_correct_witness :
    Felt.add ⟨11, 19⟩ ⟨17, 19⟩ = some ⟨9, 19⟩ := by
  have h := felt_add_correct ⟨11, 19⟩ ⟨17, 19⟩ (by decide) (by decide) rfl
  simpa using h

/-- Claim C4: for field elements sharing a prime, multiplication returns the
element whose inner value is `(a.inner * b.inner) % prime`; the product is
formed in the unbounded-natural embedding of the integer primitive, so no
intermediate overflow corrupts the result. -/
theorem felt_mul_correct (a b : Felt) (ha : a.inner < a.prime)
    (hb : b.inner < b.prime) (hpr : a.prime = b.prime) :
    Felt.mul a b = some ⟨(a.inner * b.inner) % a.prime, a.prime⟩ := by
  have hp : 0 < a.prime := Nat.pos_of_ne_zero (by omega)
  exact Felt.new_of_lt (Nat.mod_lt _ hp)

/-- Witness for C4: `2 * 17 = 15` in `GF(19)`, as in the repository's
`test_mul_div`. -/
theorem felt_mul_correct_witness :
    Felt.mul ⟨2, 19⟩ ⟨17, 19⟩ = some ⟨15, 19⟩ := by
  have h := felt_mul_correct ⟨2, 19⟩ ⟨17, 19⟩ (by decide) (by decide) rfl
  simpa using h

/-- Claim C2 (code bug): subtraction takes the underflow-avoiding branch on
`self.inner > rhs.inner` (strict), so both strict cases agree with
`(a - b) mod prime`, but `a - a` computes `prime - 0 = prime` and trips the
`Felt::new` assertion (a panic, modelled as `none`) instead of returning the
zero element. -/
theorem felt_sub_self_panics :
    Felt.sub ⟨13, 19⟩ ⟨6, 19⟩ = some ⟨7, 19⟩ ∧
    Felt.sub ⟨6, 19⟩ ⟨13, 19⟩ = some ⟨12, 19⟩ ∧
    Felt.sub ⟨5, 19⟩ ⟨5, 19⟩ = none := by
  decide

/-- Claim C3: `Felt.new` fails whenever `inner ≥ prime`, and every arithmetic
operation that returns a `Felt` returns one whose inner value is strictly
below its prime. -/
theorem felt_invariant :
    (∀ i p : ℕ, p ≤ i → Felt.new i p = none) ∧
    (∀ (i p : ℕ) (f : Felt), Felt.new i p = some f → f.inner < f.prime) ∧
    (∀ a b f : Felt, Felt.add a b = some f → f.inner < f.prime) ∧
    (∀ a b f : Felt, Felt.sub a b = some f → f.inner < f.prime) ∧
    (∀ a b f : Felt, Felt.mul a b = some f → f.inner < f.prime) ∧
    (∀ a b f : Felt, Felt.div a b = some f → f.inner < f.prime) ∧
    (∀ (a : Felt) (e : ℕ) (f : Felt), Felt.powU32 a e = some f →
      f.inner < f.prime) ∧
    (∀ (a : Felt) (e : ℤ) (f : Felt), Felt.powI64 a e = some f →
      f.inner < f.prime) := by
  refine ⟨fun i p hip => ?_, fun i p f h => Felt.new_some h,
    fun a b f h => Felt.new_some h, fun a b f h => Felt.new_some h,
    fun a b f h => Felt.new_some h, fun a b f h => Felt.new_some h,
    fun a e f h => Felt.new_some h, fun a e f h => ?_⟩
  · unfold Felt.new
    exact if_neg (Nat.not_lt.mpr hip)
  · unfold Felt.powI64 at h
    split at h
    · exact Felt.new_some h
    · exact Felt.new_some h

/-- Witness for C3: an out-of-range construction fails, and a concrete sum is
reduced. -/
theorem felt_invariant_witness :
    Felt.new 23 19 = none ∧ (9 : ℕ) < 19 := by
  refine ⟨felt_invariant.1 23 19 (by decide), ?_⟩
  exact felt_invariant.2.2.1 ⟨11, 19⟩ ⟨17, 19⟩ ⟨9, 19⟩ (by decide)

/-- Claim C5 counterexample: over the prime `p = 2` the division `1 / 0`
computes `0 ^ (p - 2) = 0 ^ 0 = 1`, so it returns the element `1`, not the
zero element. -/
theorem felt_div_zero_char_two :
    Felt.div ⟨1, 2⟩ ⟨0, 2⟩ = some ⟨1, 2⟩ ∧
    Felt.div ⟨1, 2⟩ ⟨0, 2⟩ ≠ some ⟨0, 2⟩ := by
  decide

/-- Claim C5 as amended: over a prime `p > 2`, dividing any field element by
the zero element does not fail: `0 ^ (p - 2) mod p = 0`, so the division
returns the zero element. -/
theorem felt_div_by_zero_eq_zero (a z : Felt) (hz : z.inner = 0)
    (hzp : z.prime = a.prime) (hp : 2 < a.prime) :
    Felt.div a z = some ⟨0, a.prime⟩ := by
  unfold Felt.div
  rw [hz, Nat.zero_pow (by omega), Nat.mul_zero]
  have h0 : modulo 0 a.prime = 0 := Nat.zero_mod _
  rw [h0]
  exact Felt.new_of_lt (by omega)

/-- Witness for C5 (amended): `7 / 0 = 0` in `GF(19)`. -/
theorem felt_div_by_zero_eq_zero_witness :
    Felt.div ⟨7, 19⟩ ⟨0, 19⟩ = some ⟨0, 19⟩ :=
  felt_div_by_zero_eq_zero ⟨7, 19⟩ ⟨0, 19⟩ rfl rfl (by decide)

/-- Claim C8: `pow` with an unsigned (`u32`) exponent first reduces the
exponent modulo the prime and returns the element with inner value
`a.inner ^ (e % prime) % prime`. -/
theorem felt_pow_u32_correct (a : Felt) (e : ℕ) (ha : a.inner < a.prime)
    (he : e < 2 ^ 32) :
    Felt.powU32 a e = some ⟨a.inner ^ (e % a.prime) % a.prime, a.prime⟩ := by
  have hp : 0 < a.prime := Nat.pos_of_ne_zero (by omega)
  exact Felt.new_of_lt (Nat.mod_lt _ hp)

/-- Witness for C8: `3 ^ 20 = 3 ^ (20 % 19) = 3` in `GF(19)`. -/
theorem felt_pow_u32_correct_witness :
    Felt.powU32 ⟨3, 19⟩ 20 = some ⟨3, 19⟩ := by
  have h := felt_pow_u32_correct ⟨3, 19⟩ 20 (by decide) (by decide)
  simpa using h

/-- Fermat's little theorem transported to reduced naturals: for a prime `p`
and `0 < a < p`, `a ^ (p - 1) % p = 1`. -/
lemma pow_card_sub_one_mod_eq_one {p a : ℕ} (hp : p.Prime) (ha0 : a ≠ 0)
    (ha : a < p) : a ^ (p - 1) % p = 1 := by
  haveI : Fact p.Prime := ⟨hp⟩
  have hcast : (a : ZMod p) ≠ 0 := by
    rw [Ne, ZMod.natCast_zmod_eq_zero_iff_dvd]
    intro hdvd
    exact ha0 (Nat.eq_zero_of_dvd_of_lt hdvd ha)
  have hflt : (a : ZMod p) ^ (p - 1) = 1 := ZMod.pow_card_sub_one_eq_one hcast
  have hval : ((a ^ (p - 1) : ℕ) : ZMod p).val = a ^ (p - 1) % p :=
    ZMod.val_natCast _
  rw [Nat.cast_pow, hflt] at hval
  rw [← hval, ZMod.val_one]

/-- Claim C10: the signed-exponent `pow` at exponent `0` takes the
non-positive branch and returns `base ^ (p - 1) mod p`: the identity `1` for a
nonzero base and the zero element for the zero base. -/
theorem felt_pow_i64_zero (a : Felt) (ha : a.inner < a.prime)
    (hp : a.prime.Prime) :
    Felt.powI64 a 0 = some ⟨a.inner ^ (a.prime - 1) % a.prime, a.prime⟩ ∧
    (a.inner ≠ 0 → Felt.powI64 a 0 = some ⟨1, a.prime⟩) ∧
    (a.inner = 0 → Felt.powI64 a 0 = some ⟨0, a.prime⟩) := by
  have hp2 : 2 ≤ a.prime := hp.two_le
  have hbranch : Felt.powI64 a 0 =
      some ⟨a.inner ^ (a.prime - 1) % a.prime, a.prime⟩ := by
    unfold Felt.powI64
    rw [if_neg (by omega)]
    show Felt.new (modulo (a.inner ^ (a.prime - 1 - 0)) a.prime) a.prime = _
    rw [Nat.sub_zero]
    exact Felt.new_of_lt (Nat.mod_lt _ (by omega))
  refine ⟨hbranch, fun h0 => ?_, fun h0 => ?_⟩
  · rw [hbranch, pow_card_sub_one_mod_eq_one hp h0 ha]
  · rw [hbranch, h0, Nat.zero_pow (by omega), Nat.zero_mod]

/-- Witness for C10: in `GF(19)`, `3 ^ 0` (signed) evaluates the non-positive
branch as `3 ^ 18 mod 19 = 1`. -/
theorem felt_pow_i64_zero_witness :
    Felt.powI64 ⟨3, 19⟩ 0 = some ⟨1, 19⟩ :=
  (felt_pow_i64_zero ⟨3, 19⟩ (by decide) (by norm_num)).2.1 (by decide)

/-! ### The elliptic-curve layer

The files `elliptic_curve/curve.rs`, `elliptic_curve/point.rs`,
`elliptic_curve/secp256k1.rs` and the big-integer field-element implementation
they use are not present in the sources, so the definitions below are
modelled from the spec (sections 4.1 through 4.5): reduced modular arithmetic
on naturals, the short-Weierstrass group law with its five prioritized rules,
and the two scalar-multiplication algorithms. -/

/-- Modelled from the spec: field addition of reduced residues,
`(a + b) mod p`. -/
def fadd (p a b : ℕ) : ℕ := (a + b) % p

/-- Modelled from the spec: field subtraction of reduced residues, computed
without underflow — when `a < b` the result is `p - (b - a)`. -/
def fsub (p a b : ℕ) : ℕ := if b ≤ a then a - b else p - (b - a)

/-- Modelled from the spec: field multiplication of reduced residues,
`(a * b) mod p`. -/
def fmul (p a b : ℕ) : ℕ := a * b % p

/-- Fuel-driven binary modular exponentiation.  The out-of-fuel base case is
the mathematical value itself, so the function equals `b ^ e % p` for every
fuel while remaining kernel-computable when `fuel` bounds the bit length. -/
def powModAux (p : ℕ) : ℕ → ℕ → ℕ → ℕ
  | 0, b, e => b ^ e % p
  | fuel + 1, b, e =>
    if e = 0 then 1 % p
    else if e % 2 = 1 then fmul p (b % p) (powModAux p fuel (fmul p b b) (e / 2))
    else powModAux p fuel (fmul p b b) (e / 2)

/-- Modelled from the spec: field exponentiation `b ^ e mod p`. -/
def fpow (p b e : ℕ) : ℕ := powModAux p e b e

/-- Modelled from the spec: field division via Fermat's little theorem,
`a * b ^ (p - 2) mod p`. -/
def fdiv (p a b : ℕ) : ℕ := fmul p a (fpow p b (p - 2))

/-- A point of the elliptic-curve group: the point at infinity or an affine
coordinate pair of reduced residues. -/
inductive EPoint where
  | identity : EPoint
  | affine (x y : ℕ) : EPoint
deriving DecidableEq, Repr

/-- Modelled from the spec: the group law of `y² = x³ + Ax + B` over `GF(p)`,
rules in priority order — identity cases; equal `x` and distinct `y` gives
the identity (vertical-line inverses); doubling with `y = 0` gives the
identity (vertical tangent); doubling with slope `(3x² + A) / (2y)`; generic
chord with slope `(y₂ - y₁) / (x₂ - x₁)`. -/
def ecAdd (p A : ℕ) : EPoint → EPoint → EPoint
  | .identity, Q => Q
  | P, .identity => P
  | .affine x₁ y₁, .affine x₂ y₂ =>
    if x₁ = x₂ then
      if y₁ ≠ y₂ then .identity
      else if y₁ = 0 then .identity
      else
        let s := fdiv p (fadd p (fmul p 3 (fmul p x₁ x₁)) A) (fmul p 2 y₁)
        let x₃ := fsub p (fmul p s s) (fmul p 2 x₁)
        .affine x₃ (fsub p (fmul p s (fsub p x₁ x₃)) y₁)
    else
      let s := fdiv p (fsub p y₂ y₁) (fsub p x₂ x₁)
      let x₃ := fsub p (fsub p (fmul p s s) x₁) x₂
      .affine x₃ (fsub p (fmul p s (fsub p x₁ x₃)) y₁)

/-- Modelled from the spec: naive scalar multiplication by repeated addition;
`k = 0` yields the identity. -/
def naiveMul (p A : ℕ) (P : EPoint) : ℕ → EPoint
  | 0 => .identity
  | k + 1 => ecAdd p A (naiveMul p A P k) P

/-- Modelled from the spec: the double-and-add loop — while the scalar is
nonzero, accumulate the running point on a set low bit, double the running
point, and shift the scalar right.  The fuel argument bounds the iteration
count; the scalar itself is always sufficient fuel. -/
def binMulAux (p A : ℕ) : ℕ → ℕ → EPoint → EPoint → EPoint
  | 0, _, _, res => res
  | fuel + 1, k, cur, res =>
    if k = 0 then res
    else binMulAux p A fuel (k / 2) (ecAdd p A cur cur)
      (if k % 2 = 1 then ecAdd p A res cur else res)

/-- Modelled from the spec: binary-expansion (double-and-add) scalar
multiplication. -/
def binMul (p A : ℕ) (P : EPoint) (k : ℕ) : EPoint :=
  binMulAux p A k k P .identity

/-- The validation predicate of `Curve::point`: reduced coordinates satisfying
`y² = x³ + Ax + B` in `GF(p)`, evaluated with the field operations. -/
def validAffine (p A B x y : ℕ) : Prop :=
  x < p ∧ y < p ∧
    fmul p y y = fadd p (fadd p (fmul p (fmul p x x) x) (fmul p A x)) B

instance (p A B x y : ℕ) : Decidable (validAffine p A B x y) := by
  unfold validAffine
  infer_instance

/-! ### Claim C7: the validating point factory of `Curve` -/

/-- Modelled from the spec: the error kind raised when a coordinate pair does
not satisfy the curve equation. -/
inductive CurveError where
  | PointNotOnCurve : CurveError
deriving DecidableEq, Repr

/-- Modelled from the spec: a short-Weierstrass curve `y² = x³ + ax + b`
given by its two field-element coefficients. -/
structure Curve where
  a : Felt
  b : Felt
deriving DecidableEq, Repr

/-- Modelled from the spec: a point bound to its owning curve — the identity
(point at infinity) or an affine coordinate pair. -/
inductive Point where
  | identity (c : Curve) : Point
  | affine (c : Curve) (x y : Felt) : Point
deriving DecidableEq, Repr

/-- Modelled from the spec: the validating factory `Curve::point` — it checks
`y² = x³ + a·x + b` with field arithmetic over the curve's prime and returns
an affine point bound to the curve, or the `PointNotOnCurve` error. -/
def Curve.point (c : Curve) (x y : Felt) : Except CurveError Point :=
  if fmul c.a.prime y.inner y.inner =
      fadd c.a.prime (fadd c.a.prime
        (fmul c.a.prime (fmul c.a.prime x.inner x.inner) x.inner)
        (fmul c.a.prime c.a.inner x.inner)) c.b.inner
  then .ok (.affine c x y)
  else .error .PointNotOnCurve

/-- The toy curve `y² = x³ + 7` over `GF(223)` of the repository's tests. -/
def toyCurve : Curve := ⟨⟨0, 223⟩, ⟨7, 223⟩⟩

/-- The curve-equation check evaluated by `Curve.point`, in closed modular
form. -/
lemma curve_cond_iff (p A B x y : ℕ) :
    (fmul p y y =
      fadd p (fadd p (fmul p (fmul p x x) x) (fmul p A x)) B) ↔
    (y ^ 2 % p = (x ^ 3 + A * x + B) % p) := by
  unfold fmul fadd
  simp only [Nat.mod_mul_mod, Nat.mod_add_mod, Nat.add_mod_mod]
  rw [show y * y = y ^ 2 by ring, show x * x * x = x ^ 3 by ring]

/-- Claim C7: `Curve::point` succeeds with an affine point bound to the curve
exactly when `y² = x³ + a·x + b` holds modulo the curve's prime, and fails
with `PointNotOnCurve` otherwise; on the toy curve `y² = x³ + 7` over
`GF(223)`, the pairs `(192, 105)`, `(17, 56)`, `(1, 193)` construct and
`(200, 119)`, `(42, 99)` fail. -/
theorem curve_point_validation :
    (∀ (c : Curve) (x y : Felt),
      (c.point x y = .ok (.affine c x y) ↔
        y.inner ^ 2 % c.a.prime =
          (x.inner ^ 3 + c.a.inner * x.inner + c.b.inner) % c.a.prime) ∧
      (y.inner ^ 2 % c.a.prime ≠
          (x.inner ^ 3 + c.a.inner * x.inner + c.b.inner) % c.a.prime →
        c.point x y = .error .PointNotOnCurve)) ∧
    toyCurve.point ⟨192, 223⟩ ⟨105, 223⟩ =
      .ok (.affine toyCurve ⟨192, 223⟩ ⟨105, 223⟩) ∧
    toyCurve.point ⟨17, 223⟩ ⟨56, 223⟩ =
      .ok (.affine toyCurve ⟨17, 223⟩ ⟨56, 223⟩) ∧
    toyCurve.point ⟨1, 223⟩ ⟨193, 223⟩ =
      .ok (.affine toyCurve ⟨1, 223⟩ ⟨193, 223⟩) ∧
    toyCurve.point ⟨200, 223⟩ ⟨119, 223⟩ = .error .PointNotOnCurve ∧
    toyCurve.point ⟨42, 223⟩ ⟨99, 223⟩ = .error .PointNotOnCurve := by
  have hgen : ∀ (c : Curve) (x y : Felt),
      (c.point x y = .ok (.affine c x y) ↔
        y.inner ^ 2 % c.a.prime =
          (x.inner ^ 3 + c.a.inner * x.inner + c.b.inner) % c.a.prime) ∧
      (y.inner ^ 2 % c.a.prime ≠
          (x.inner ^ 3 + c.a.inner * x.inner + c.b.inner) % c.a.prime →
        c.point x y = .error .PointNotOnCurve) := by
    intro c x y
    have hiff := curve_cond_iff c.a.prime c.a.inner c.b.inner x.inner y.inner
    constructor
    · unfold Curve.point
      split
      · exact iff_of_true rfl (hiff.mp (by assumption))
      · refine iff_of_false (by simp) fun h => ?_
        exact absurd (hiff.mpr h) (by assumption)
    · intro hne
      unfold Curve.point
      split
      · exact absurd (hiff.mp (by assumption)) hne
      · rfl
  refine ⟨hgen, (hgen _ _ _).1.mpr (by decide), (hgen _ _ _).1.mpr (by decide),
    (hgen _ _ _).1.mpr (by decide), (hgen _ _ _).2 (by decide),
    (hgen _ _ _).2 (by decide)⟩

/-- Witness for C7: the general clause applied to the toy curve at the
invalid pair `(200, 119)` and the valid pair `(192, 105)`. -/
theorem curve_point_validation_witness :
    toyCurve.point ⟨200, 223⟩ ⟨119, 223⟩ = .error .PointNotOnCurve ∧
    toyCurve.point ⟨192, 223⟩ ⟨105, 223⟩ =
      .ok (.affine toyCurve ⟨192, 223⟩ ⟨105, 223⟩) := by
  refine ⟨(curve_point_validation.1 toyCurve ⟨200, 223⟩ ⟨119, 223⟩).2
    (by decide), ?_⟩
  exact (curve_point_validation.1 toyCurve ⟨192, 223⟩ ⟨105, 223⟩).1.mpr
    (by decide)

/-! ### Claim C6: secp256k1 -/

/-- The secp256k1 field prime `2²⁵⁶ - 2³² - 977`. -/
def secpPrime : ℕ :=
  115792089237316195423570985008687907853269984665640564039457584007908834671663

/-- The x-coordinate of the secp256k1 generator. -/
def secpGx : ℕ :=
  55066263022277343669578718895168534326250603453777594175500187360389116729240

/-- The y-coordinate of the secp256k1 generator. -/
def secpGy : ℕ :=
  32670510020758816978083085130507043184471273380659243275938904335757337482424

/-- The secp256k1 group order `n`. -/
def secpOrder : ℕ :=
  115792089237316195423570985008687907852837564279074904382605163141518161494337

set_option maxRecDepth 100000 in
set_option maxHeartbeats 1600000 in
/-- Claim C6: the secp256k1 generator is a valid point of `y² = x³ + 7` over
the secp256k1 prime, and multiplying it by the secp256k1 group order with the
binary-expansion scalar multiplication returns the Identity point. -/
theorem secp_g_mul_order_eq_identity :
    validAffine secpPrime 0 7 secpGx secpGy ∧
    binMul secpPrime 0 (.affine secpGx secpGy) secpOrder = .identity := by
  constructor
  · decide
  · decide

/-! ### Claim C1: refinement of the two scalar-multiplication algorithms

The spec-modelled group law over `GF(p)` is related to Mathlib's
`WeierstrassCurve.Affine.Point` group, whose associativity makes the two
algorithms meet.  The correspondence holds for odd primes; the claim itself
fails over `GF(2)` (see the counterexample), where the tangent denominator
`2y` vanishes and the Fermat division degrades. -/

/-- The modular exponentiation helper computes `b ^ e % p` at every fuel. -/
lemma powModAux_eq (p : ℕ) : ∀ fuel b e, powModAux p fuel b e = b ^ e % p := by
  intro fuel
  induction fuel with
  | zero => intro b e; rfl
  | succ n ih =>
    intro b e
    show (if e = 0 then 1 % p
      else if e % 2 = 1 then fmul p (b % p) (powModAux p n (fmul p b b) (e / 2))
      else powModAux p n (fmul p b b) (e / 2)) = b ^ e % p
    by_cases he : e = 0
    · rw [if_pos he, he, pow_zero]
    rw [if_neg he, ih]
    have hsplit : (fmul p b b) ^ (e / 2) % p = (b * b) ^ (e / 2) % p := by
      unfold fmul
      rw [← Nat.pow_mod]
    by_cases hpar : e % 2 = 1
    · rw [if_pos hpar, hsplit]
      unfold fmul
      have he2 : e = 2 * (e / 2) + 1 := by omega
      calc b % p * ((b * b) ^ (e / 2) % p) % p
          = b * (b * b) ^ (e / 2) % p := by
            rw [← Nat.mul_mod]
        _ = b ^ e % p := by
            rw [show b * (b * b) ^ (e / 2) = b ^ (2 * (e / 2) + 1) by
              rw [pow_succ, two_mul, pow_add]; ring, ← he2]
    · rw [if_neg hpar]
      rw [hsplit]
      have he2 : e = 2 * (e / 2) := by omega
      rw [show (b * b) ^ (e / 2) = b ^ (2 * (e / 2)) by
        rw [two_mul, pow_add]; ring, ← he2]

/-- Values of `fadd` cast to `ZMod p` as field addition. -/
lemma cast_fadd (p a b : ℕ) : ((fadd p a b : ℕ) : ZMod p) = a + b := by
  unfold fadd
  rw [ZMod.natCast_mod]
  push_cast
  ring

/-- Values of `fmul` cast to `ZMod p` as field multiplication. -/
lemma cast_fmul (p a b : ℕ) : ((fmul p a b : ℕ) : ZMod p) = a * b := by
  unfold fmul
  rw [ZMod.natCast_mod]
  push_cast
  ring

/-- Values of `fsub` on reduced inputs cast to `ZMod p` as field
subtraction. -/
lemma cast_fsub {p a b : ℕ} (ha : a < p) (hb : b < p) :
    ((fsub p a b : ℕ) : ZMod p) = (a : ZMod p) - b := by
  unfold fsub
  split
  · rw [Nat.cast_sub (by assumption)]
  · have hab : a ≤ b := by omega
    have hba : b - a ≤ p := by omega
    rw [Nat.cast_sub hba, Nat.cast_sub hab, ZMod.natCast_self]
    ring

/-- Values of `fpow` cast to `ZMod p` as field exponentiation. -/
lemma cast_fpow (p b e : ℕ) : ((fpow p b e : ℕ) : ZMod p) = (b : ZMod p) ^ e := by
  unfold fpow
  rw [powModAux_eq, ZMod.natCast_mod, Nat.cast_pow]

/-- Values of `fdiv` with a nonzero divisor cast to `ZMod p` as
multiplication by the field inverse. -/
lemma cast_fdiv {p : ℕ} [Fact p.Prime] (a : ℕ) {b : ℕ}
    (hb : (b : ZMod p) ≠ 0) :
    ((fdiv p a b : ℕ) : ZMod p) = (a : ZMod p) * (b : ZMod p)⁻¹ := by
  unfold fdiv
  rw [cast_fmul, cast_fpow]
  congr 1
  have hp2 : 2 ≤ p := (Fact.out : p.Prime).two_le
  have h1 : (b : ZMod p) ^ (p - 2) * b = 1 := by
    rw [← pow_succ, show p - 2 + 1 = p - 1 by omega]
    exact ZMod.pow_card_sub_one_eq_one hb
  exact eq_inv_of_mul_eq_one_left h1

lemma fadd_lt {p : ℕ} (hp : 0 < p) (a b : ℕ) : fadd p a b < p :=
  Nat.mod_lt _ hp

lemma fmul_lt {p : ℕ} (hp : 0 < p) (a b : ℕ) : fmul p a b < p :=
  Nat.mod_lt _ hp

lemma fsub_lt {p a : ℕ} (hp : 0 < p) (ha : a < p) (b : ℕ) : fsub p a b < p := by
  unfold fsub
  split <;> omega

lemma fdiv_lt {p : ℕ} (hp : 0 < p) (a b : ℕ) : fdiv p a b < p :=
  fmul_lt hp _ _

/-- Casting is injective on residues reduced below the modulus. -/
lemma cast_inj_of_lt {p a b : ℕ} [NeZero p] (ha : a < p) (hb : b < p)
    (h : (a : ZMod p) = b) : a = b := by
  have hv := congrArg ZMod.val h
  rwa [ZMod.val_cast_of_lt ha, ZMod.val_cast_of_lt hb] at hv

/-- A nonzero reduced residue casts to a nonzero element of `ZMod p`. -/
lemma cast_ne_zero_of_lt {p a : ℕ} (h0 : a ≠ 0) (ha : a < p) :
    (a : ZMod p) ≠ 0 := by
  rw [Ne, ZMod.natCast_zmod_eq_zero_iff_dvd]
  intro hdvd
  exact h0 (Nat.eq_zero_of_dvd_of_lt hdvd ha)

/-- Two is a unit modulo an odd prime. -/
lemma zmod_two_ne_zero {p : ℕ} (hodd : 2 < p) : (2 : ZMod p) ≠ 0 := by
  have h : ((2 : ℕ) : ZMod p) ≠ 0 := by
    rw [Ne, ZMod.natCast_zmod_eq_zero_iff_dvd]
    intro hdvd
    exact absurd (Nat.le_of_dvd two_pos hdvd) (by omega)
  simpa using h

/-- The ambient Mathlib Weierstrass curve `y² = x³ + Ax + B` over `ZMod p`. -/
def toW (p A B : ℕ) : WeierstrassCurve.Affine (ZMod p) :=
  ⟨0, 0, 0, (A : ZMod p), (B : ZMod p)⟩

lemma toW_negY (p A B : ℕ) (x y : ZMod p) : (toW p A B).negY x y = -y := by
  simp [WeierstrassCurve.Affine.negY, toW]

/-- The spec-modelled on-curve check gives membership in the Mathlib curve. -/
lemma toW_equation {p A B x y : ℕ}
    (h : fmul p y y = fadd p (fadd p (fmul p (fmul p x x) x) (fmul p A x)) B) :
    (toW p A B).Equation (x : ZMod p) (y : ZMod p) := by
  rw [WeierstrassCurve.Affine.equation_iff]
  have hc := congrArg (fun n : ℕ => (n : ZMod p)) h
  simp only [cast_fmul, cast_fadd] at hc
  simp only [toW]
  linear_combination hc

/-- A nonzero reduced discriminant residue makes the Mathlib discriminant
nonzero (for odd primes, where `16` is a unit). -/
lemma toW_delta_ne_zero {p A B : ℕ} [Fact p.Prime] (hodd : 2 < p)
    (hd : (4 * A ^ 3 + 27 * B ^ 2) % p ≠ 0) : (toW p A B).Δ ≠ 0 := by
  have hp : p.Prime := Fact.out
  have h16 : ((16 : ℕ) : ZMod p) ≠ 0 := by
    rw [Ne, ZMod.natCast_zmod_eq_zero_iff_dvd]
    intro hdvd
    have h2 : p ∣ 2 ^ 4 := by
      norm_num
      simpa using hdvd
    have := Nat.le_of_dvd two_pos (hp.dvd_of_dvd_pow h2)
    omega
  have hc : ((4 * A ^ 3 + 27 * B ^ 2 : ℕ) : ZMod p) ≠ 0 := by
    rw [Ne, ZMod.natCast_zmod_eq_zero_iff_dvd]
    intro hdvd
    obtain ⟨c, hc2⟩ := hdvd
    apply hd
    rw [hc2]
    exact Nat.mul_mod_right p c
  have hval : (toW p A B).Δ = -16 * ((4 * A ^ 3 + 27 * B ^ 2 : ℕ) : ZMod p) := by
    simp only [WeierstrassCurve.Δ, WeierstrassCurve.b₂, WeierstrassCurve.b₄,
      WeierstrassCurve.b₆, WeierstrassCurve.b₈, toW]
    push_cast
    ring
  rw [hval]
  refine mul_ne_zero ?_ hc
  intro h
  apply h16
  have : (-16 : ZMod p) = -((16 : ℕ) : ZMod p) := by push_cast; ring
  rw [this, neg_eq_zero] at h
  exact h

/-- The tangent slope of the doubling branch of `ecAdd`, as a residue. -/
def dblS (p A x y : ℕ) : ℕ :=
  fdiv p (fadd p (fmul p 3 (fmul p x x)) A) (fmul p 2 y)

/-- The output x-coordinate of the doubling branch of `ecAdd`. -/
def dblX (p A x y : ℕ) : ℕ :=
  fsub p (fmul p (dblS p A x y) (dblS p A x y)) (fmul p 2 x)

/-- The output y-coordinate of the doubling branch of `ecAdd`. -/
def dblY (p A x y : ℕ) : ℕ :=
  fsub p (fmul p (dblS p A x y) (fsub p x (dblX p A x y))) y

/-- The chord slope of the generic branch of `ecAdd`, as a residue. -/
def chS (p x₁ y₁ x₂ y₂ : ℕ) : ℕ :=
  fdiv p (fsub p y₂ y₁) (fsub p x₂ x₁)

/-- The output x-coordinate of the chord branch of `ecAdd`. -/
def chX (p x₁ y₁ x₂ y₂ : ℕ) : ℕ :=
  fsub p (fsub p (fmul p (chS p x₁ y₁ x₂ y₂) (chS p x₁ y₁ x₂ y₂)) x₁) x₂

/-- The output y-coordinate of the chord branch of `ecAdd`. -/
def chY (p x₁ y₁ x₂ y₂ : ℕ) : ℕ :=
  fsub p (fmul p (chS p x₁ y₁ x₂ y₂) (fsub p x₁ (chX p x₁ y₁ x₂ y₂))) y₁

lemma ecAdd_id_left (p A : ℕ) (Q : EPoint) :
    ecAdd p A .identity Q = Q := by
  cases Q <;> rfl

lemma ecAdd_id_right (p A : ℕ) (P : EPoint) :
    ecAdd p A P .identity = P := by
  cases P <;> rfl

lemma ecAdd_vert (p A : ℕ) {x₁ y₁ x₂ y₂ : ℕ} (hx : x₁ = x₂) (hy : y₁ ≠ y₂) :
    ecAdd p A (.affine x₁ y₁) (.affine x₂ y₂) = .identity := by
  simp [ecAdd, hx, hy]

lemma ecAdd_self_zero (p A : ℕ) {x₁ y₁ x₂ y₂ : ℕ} (hx : x₁ = x₂)
    (hy : y₁ = y₂) (h0 : y₁ = 0) :
    ecAdd p A (.affine x₁ y₁) (.affine x₂ y₂) = .identity := by
  subst hx
  subst hy
  simp [ecAdd, h0]

lemma ecAdd_double (p A : ℕ) {x₁ y₁ x₂ y₂ : ℕ} (hx : x₁ = x₂)
    (hy : y₁ = y₂) (h0 : y₁ ≠ 0) :
    ecAdd p A (.affine x₁ y₁) (.affine x₂ y₂) =
      .affine (dblX p A x₁ y₁) (dblY p A x₁ y₁) := by
  subst hx
  subst hy
  simp [ecAdd, h0, dblX, dblY, dblS]

lemma ecAdd_chord (p A : ℕ) {x₁ y₁ x₂ y₂ : ℕ} (hx : x₁ ≠ x₂) :
    ecAdd p A (.affine x₁ y₁) (.affine x₂ y₂) =
      .affine (chX p x₁ y₁ x₂ y₂) (chY p x₁ y₁ x₂ y₂) := by
  simp [ecAdd, hx, chX, chY, chS]

/-- The relation pairing a spec-modelled point with the Mathlib nonsingular
point carrying the same coordinates. -/
inductive Reps (p A B : ℕ) :
    EPoint → WeierstrassCurve.Affine.Point (toW p A B) → Prop where
  | identity : Reps p A B .identity 0
  | affine (x y : ℕ) (hx : x < p) (hy : y < p)
      (h : (toW p A B).Nonsingular (x : ZMod p) (y : ZMod p)) :
      Reps p A B (.affine x y) (.some h)

/-- Transport of `Reps.affine` along coordinate equalities. -/
lemma Reps.affine_cast {p A B x y : ℕ} (hx : x < p) (hy : y < p)
    {u v : ZMod p} (hu : (x : ZMod p) = u) (hv : (y : ZMod p) = v)
    (h : (toW p A B).Nonsingular u v) :
    Reps p A B (.affine x y) (.some h) := by
  subst hu
  subst hv
  exact .affine x y hx hy h

/-- Two on-curve points over the same abscissa have equal or opposite
ordinates. -/
lemma y_cases {p A B x y₁ y₂ : ℕ} [Fact p.Prime]
    (h₁ : (toW p A B).Equation (x : ZMod p) (y₁ : ZMod p))
    (h₂ : (toW p A B).Equation (x : ZMod p) (y₂ : ZMod p)) :
    (y₁ : ZMod p) = y₂ ∨ (y₁ : ZMod p) = -(y₂ : ZMod p) := by
  rw [WeierstrassCurve.Affine.equation_iff] at h₁ h₂
  simp only [toW] at h₁ h₂
  have hsq : ((y₁ : ZMod p) - y₂) * ((y₁ : ZMod p) + y₂) = 0 := by
    linear_combination h₁ - h₂
  rcases mul_eq_zero.mp hsq with h | h
  · exact Or.inl (sub_eq_zero.mp h)
  · exact Or.inr (eq_neg_of_add_eq_zero_left h)

lemma dblX_lt {p : ℕ} (hp : 0 < p) (A x y : ℕ) : dblX p A x y < p :=
  fsub_lt hp (fmul_lt hp _ _) _

lemma dblY_lt {p : ℕ} (hp : 0 < p) (A x y : ℕ) : dblY p A x y < p :=
  fsub_lt hp (fmul_lt hp _ _) _

lemma chX_lt {p : ℕ} (hp : 0 < p) (x₁ y₁ x₂ y₂ : ℕ) :
    chX p x₁ y₁ x₂ y₂ < p :=
  fsub_lt hp (fsub_lt hp (fmul_lt hp _ _) _) _

lemma chY_lt {p : ℕ} (hp : 0 < p) (x₁ y₁ x₂ y₂ : ℕ) :
    chY p x₁ y₁ x₂ y₂ < p :=
  fsub_lt hp (fmul_lt hp _ _) _

/-- The doubling slope of `ecAdd` casts to the Mathlib tangent slope. -/
lemma cast_dblS (p A B : ℕ) [Fact p.Prime] (hodd : 2 < p) {x y : ℕ}
    (hy : y < p) (hy0 : y ≠ 0) :
    ((dblS p A x y : ℕ) : ZMod p) =
      (toW p A B).slope (x : ZMod p) (x : ZMod p) (y : ZMod p) (y : ZMod p) := by
  have hyc : (y : ZMod p) ≠ 0 := cast_ne_zero_of_lt hy0 hy
  have hden : ((fmul p 2 y : ℕ) : ZMod p) = 2 * (y : ZMod p) := by
    rw [cast_fmul]
    norm_num
  have hdne : ((fmul p 2 y : ℕ) : ZMod p) ≠ 0 := by
    rw [hden]
    exact mul_ne_zero (zmod_two_ne_zero hodd) hyc
  have hneg : (y : ZMod p) ≠ (toW p A B).negY (x : ZMod p) (y : ZMod p) := by
    rw [toW_negY]
    intro h
    have h2 : 2 * (y : ZMod p) = 0 := by linear_combination h
    exact mul_ne_zero (zmod_two_ne_zero hodd) hyc h2
  rw [WeierstrassCurve.Affine.slope_of_Y_ne rfl hneg]
  rw [dblS, cast_fdiv _ hdne, cast_fadd, cast_fmul, cast_fmul, hden]
  rw [toW_negY]
  simp only [toW]
  rw [div_eq_mul_inv, show (y : ZMod p) - -(y : ZMod p) = 2 * y by ring]
  push_cast
  ring

/-- The chord slope of `ecAdd` casts to the Mathlib secant slope. -/
lemma cast_chS (p A B : ℕ) [Fact p.Prime] {x₁ y₁ x₂ y₂ : ℕ}
    (hx₁ : x₁ < p) (hy₁ : y₁ < p) (hx₂ : x₂ < p) (hy₂ : y₂ < p)
    (hne : x₁ ≠ x₂) :
    ((chS p x₁ y₁ x₂ y₂ : ℕ) : ZMod p) =
      (toW p A B).slope (x₁ : ZMod p) (x₂ : ZMod p) (y₁ : ZMod p)
        (y₂ : ZMod p) := by
  have hcne : (x₁ : ZMod p) ≠ (x₂ : ZMod p) :=
    fun h => hne (cast_inj_of_lt hx₁ hx₂ h)
  have hden : ((fsub p x₂ x₁ : ℕ) : ZMod p) = (x₂ : ZMod p) - x₁ :=
    cast_fsub hx₂ hx₁
  have hdne : ((fsub p x₂ x₁ : ℕ) : ZMod p) ≠ 0 := by
    rw [hden]
    exact sub_ne_zero_of_ne (Ne.symm hcne)
  rw [WeierstrassCurve.Affine.slope_of_X_ne hcne]
  rw [chS, cast_fdiv _ hdne, cast_fsub hy₂ hy₁, hden]
  rw [div_eq_mul_inv,
    show (x₁ : ZMod p) - x₂ = -((x₂ : ZMod p) - x₁) by ring, inv_neg]
  ring

/-- The doubling x-coordinate of `ecAdd` casts to Mathlib's `addX`. -/
lemma cast_dblX (p A B : ℕ) [Fact p.Prime] (hodd : 2 < p) {x y : ℕ}
    (hx : x < p) (hy : y < p) (hy0 : y ≠ 0) :
    ((dblX p A x y : ℕ) : ZMod p) =
      (toW p A B).addX (x : ZMod p) (x : ZMod p)
        ((toW p A B).slope (x : ZMod p) (x : ZMod p) (y : ZMod p)
          (y : ZMod p)) := by
  have hp : 0 < p := by omega
  rw [dblX, cast_fsub (fmul_lt hp _ _) (fmul_lt hp _ _), cast_fmul, cast_fmul,
    cast_dblS p A B hodd hy hy0]
  rw [WeierstrassCurve.Affine.addX]
  simp only [toW]
  push_cast
  ring

/-- The doubling y-coordinate of `ecAdd` casts to Mathlib's `addY`. -/
lemma cast_dblY (p A B : ℕ) [Fact p.Prime] (hodd : 2 < p) {x y : ℕ}
    (hx : x < p) (hy : y < p) (hy0 : y ≠ 0) :
    ((dblY p A x y : ℕ) : ZMod p) =
      (toW p A B).addY (x : ZMod p) (x : ZMod p) (y : ZMod p)
        ((toW p A B).slope (x : ZMod p) (x : ZMod p) (y : ZMod p)
          (y : ZMod p)) := by
  have hp : 0 < p := by omega
  rw [dblY, cast_fsub (fmul_lt hp _ _) hy, cast_fmul,
    cast_fsub hx (dblX_lt hp A x y), cast_dblS p A B hodd hy hy0,
    cast_dblX p A B hodd hx hy hy0]
  rw [WeierstrassCurve.Affine.addY, WeierstrassCurve.Affine.negAddY, toW_negY]
  ring

/-- The chord x-coordinate of `ecAdd` casts to Mathlib's `addX`. -/
lemma cast_chX (p A B : ℕ) [Fact p.Prime] {x₁ y₁ x₂ y₂ : ℕ}
    (hx₁ : x₁ < p) (hy₁ : y₁ < p) (hx₂ : x₂ < p) (hy₂ : y₂ < p)
    (hne : x₁ ≠ x₂) :
    ((chX p x₁ y₁ x₂ y₂ : ℕ) : ZMod p) =
      (toW p A B).addX (x₁ : ZMod p) (x₂ : ZMod p)
        ((toW p A B).slope (x₁ : ZMod p) (x₂ : ZMod p) (y₁ : ZMod p)
          (y₂ : ZMod p)) := by
  have hp : 0 < p := by omega
  rw [chX, cast_fsub (fsub_lt hp (fmul_lt hp _ _) _) hx₂,
    cast_fsub (fmul_lt hp _ _) hx₁, cast_fmul,
    cast_chS p A B hx₁ hy₁ hx₂ hy₂ hne]
  rw [WeierstrassCurve.Affine.addX]
  simp only [toW]
  ring

/-- The chord y-coordinate of `ecAdd` casts to Mathlib's `addY`. -/
lemma cast_chY (p A B : ℕ) [Fact p.Prime] {x₁ y₁ x₂ y₂ : ℕ}
    (hx₁ : x₁ < p) (hy₁ : y₁ < p) (hx₂ : x₂ < p) (hy₂ : y₂ < p)
    (hne : x₁ ≠ x₂) :
    ((chY p x₁ y₁ x₂ y₂ : ℕ) : ZMod p) =
      (toW p A B).addY (x₁ : ZMod p) (x₂ : ZMod p) (y₁ : ZMod p)
        ((toW p A B).slope (x₁ : ZMod p) (x₂ : ZMod p) (y₁ : ZMod p)
          (y₂ : ZMod p)) := by
  have hp : 0 < p := by omega
  rw [chY, cast_fsub (fmul_lt hp _ _) hy₁, cast_fmul,
    cast_fsub hx₁ (chX_lt hp x₁ y₁ x₂ y₂),
    cast_chS p A B hx₁ hy₁ hx₂ hy₂ hne, cast_chX p A B hx₁ hy₁ hx₂ hy₂ hne]
  rw [WeierstrassCurve.Affine.addY, WeierstrassCurve.Affine.negAddY, toW_negY]
  ring

/-- The spec-modelled group law tracks Mathlib's point addition: related
arguments produce related sums. -/
lemma reps_add {p A B : ℕ} [Fact p.Prime] (hodd : 2 < p) {P Q : EPoint}
    {Pm Qm : WeierstrassCurve.Affine.Point (toW p A B)}
    (hP : Reps p A B P Pm) (hQ : Reps p A B Q Qm) :
    Reps p A B (ecAdd p A P Q) (Pm + Qm) := by
  have hp : 0 < p := by omega
  cases hP with
  | identity =>
    rw [ecAdd_id_left, zero_add]
    exact hQ
  | affine x₁ y₁ hx₁ hy₁ h₁ =>
    cases hQ with
    | identity =>
      rw [ecAdd_id_right, add_zero]
      exact .affine x₁ y₁ hx₁ hy₁ h₁
    | affine x₂ y₂ hx₂ hy₂ h₂ =>
      by_cases hxx : x₁ = x₂
      · subst hxx
        by_cases hyy : y₁ = y₂
        · subst hyy
          by_cases hy0 : y₁ = 0
          · rw [ecAdd_self_zero p A rfl rfl hy0]
            have hneg : (y₁ : ZMod p) =
                (toW p A B).negY (x₁ : ZMod p) (y₁ : ZMod p) := by
              rw [toW_negY, hy0]
              norm_num
            rw [WeierstrassCurve.Affine.Point.add_of_Y_eq rfl hneg]
            exact .identity
          · rw [ecAdd_double p A rfl rfl hy0]
            have hneg : (y₁ : ZMod p) ≠
                (toW p A B).negY (x₁ : ZMod p) (y₁ : ZMod p) := by
              rw [toW_negY]
              intro h
              have h2 : 2 * (y₁ : ZMod p) = 0 := by linear_combination h
              exact mul_ne_zero (zmod_two_ne_zero hodd)
                (cast_ne_zero_of_lt hy0 hy₁) h2
            rw [WeierstrassCurve.Affine.Point.add_of_Y_ne hneg]
            exact Reps.affine_cast (dblX_lt hp A x₁ y₁) (dblY_lt hp A x₁ y₁)
              (cast_dblX p A B hodd hx₁ hy₁ hy0)
              (cast_dblY p A B hodd hx₁ hy₁ hy0) _
        · rw [ecAdd_vert p A rfl hyy]
          have hneg : (y₁ : ZMod p) =
              (toW p A B).negY (x₁ : ZMod p) (y₂ : ZMod p) := by
            rw [toW_negY]
            rcases y_cases h₁.1 h₂.1 with h | h
            · exact absurd (cast_inj_of_lt hy₁ hy₂ h) hyy
            · exact h
          rw [WeierstrassCurve.Affine.Point.add_of_Y_eq rfl hneg]
          exact .identity
      · rw [ecAdd_chord p A hxx]
        have hcne : (x₁ : ZMod p) ≠ (x₂ : ZMod p) :=
          fun h => hxx (cast_inj_of_lt hx₁ hx₂ h)
        rw [WeierstrassCurve.Affine.Point.add_of_X_ne hcne]
        exact Reps.affine_cast (chX_lt hp x₁ y₁ x₂ y₂) (chY_lt hp x₁ y₁ x₂ y₂)
          (cast_chX p A B hx₁ hy₁ hx₂ hy₂ hxx)
          (cast_chY p A B hx₁ hy₁ hx₂ hy₂ hxx) _

/-- Naive multiplication tracks Mathlib's additive scalar multiple. -/
lemma reps_naiveMul {p A B : ℕ} [Fact p.Prime] (hodd : 2 < p) {P : EPoint}
    {Pm : WeierstrassCurve.Affine.Point (toW p A B)}
    (hP : Reps p A B P Pm) (k : ℕ) :
    Reps p A B (naiveMul p A P k) (k • Pm) := by
  induction k with
  | zero =>
    rw [zero_nsmul]
    exact .identity
  | succ n ih =>
    rw [succ_nsmul]
    exact reps_add hodd ih hP

/-- The double-and-add loop tracks `resm + k • curm` whenever the fuel bounds
the remaining scalar. -/
lemma reps_binMulAux {p A B : ℕ} [Fact p.Prime] (hodd : 2 < p) :
    ∀ (fuel k : ℕ) (cur res : EPoint)
      (curm resm : WeierstrassCurve.Affine.Point (toW p A B)),
      k ≤ fuel → Reps p A B cur curm → Reps p A B res resm →
      Reps p A B (binMulAux p A fuel k cur res) (resm + k • curm) := by
  intro fuel
  induction fuel with
  | zero =>
    intro k cur res curm resm hk hcur hres
    have hk0 : k = 0 := by omega
    subst hk0
    rw [zero_nsmul, add_zero]
    exact hres
  | succ n ih =>
    intro k cur res curm resm hk hcur hres
    by_cases hk0 : k = 0
    · subst hk0
      rw [zero_nsmul, add_zero]
      simpa [binMulAux] using hres
    · have hstep : binMulAux p A (n + 1) k cur res =
          binMulAux p A n (k / 2) (ecAdd p A cur cur)
            (if k % 2 = 1 then ecAdd p A res cur else res) := by
        simp [binMulAux, hk0]
      rw [hstep]
      have hdiv : k / 2 ≤ n := by omega
      have hcur2 : Reps p A B (ecAdd p A cur cur) (curm + curm) :=
        reps_add hodd hcur hcur
      rcases Nat.mod_two_eq_zero_or_one k with hpar | hpar
      · rw [show (if k % 2 = 1 then ecAdd p A res cur else res) = res by
          rw [hpar]; norm_num]
        have hmain := ih (k / 2) _ _ _ _ hdiv hcur2 hres
        have heq : resm + (k / 2) • (curm + curm) = resm + k • curm := by
          rw [← two_nsmul, ← mul_nsmul, show 2 * (k / 2) = k by omega]
        rwa [heq] at hmain
      · rw [show (if k % 2 = 1 then ecAdd p A res cur else res) =
            ecAdd p A res cur by rw [hpar, if_pos rfl]]
        have hres2 : Reps p A B (ecAdd p A res cur) (resm + curm) :=
          reps_add hodd hres hcur
        have hmain := ih (k / 2) _ _ _ _ hdiv hcur2 hres2
        have heq : resm + curm + (k / 2) • (curm + curm) = resm + k • curm := by
          rw [← two_nsmul, ← mul_nsmul, add_assoc]
          congr 1
          have hk2 : 2 * (k / 2) + 1 = k := by omega
          calc curm + (2 * (k / 2)) • curm
              = (2 * (k / 2)) • curm + 1 • curm := by
                rw [one_nsmul]
                exact add_comm _ _
            _ = (2 * (k / 2) + 1) • curm := (add_nsmul _ _ _).symm
            _ = k • curm := by rw [hk2]
        rwa [heq] at hmain

/-- Related spec points of equal Mathlib images are equal. -/
lemma reps_inj {p A B : ℕ} [Fact p.Prime] {P Q : EPoint}
    {Pm Qm : WeierstrassCurve.Affine.Point (toW p A B)}
    (hP : Reps p A B P Pm) (hQ : Reps p A B Q Qm) (h : Pm = Qm) : P = Q := by
  cases hP with
  | identity =>
    cases hQ with
    | identity => rfl
    | affine x y hx hy hn =>
      exact (WeierstrassCurve.Affine.Point.some_ne_zero hn h.symm).elim
  | affine x₁ y₁ hx₁ hy₁ h₁ =>
    cases hQ with
    | identity =>
      exact (WeierstrassCurve.Affine.Point.some_ne_zero h₁ h).elim
    | affine x₂ y₂ hx₂ hy₂ h₂ =>
      injection h with hxe hye
      rw [cast_inj_of_lt hx₁ hx₂ hxe, cast_inj_of_lt hy₁ hy₂ hye]

/-- Claim C1 as amended: over an odd prime `p` and a curve whose discriminant
residue `(4A³ + 27B²) mod p` is nonzero, naive repeated-addition
multiplication and binary-expansion multiplication agree on every valid
point and every non-negative scalar (including `k = 0` and `k = 1`). -/
theorem naive_mul_eq_binary_expansion_mul (p A B x y k : ℕ)
    (hp : Nat.Prime p) (hodd : 2 < p)
    (hd : (4 * A ^ 3 + 27 * B ^ 2) % p ≠ 0)
    (hv : validAffine p A B x y) :
    naiveMul p A (.affine x y) k = binMul p A (.affine x y) k := by
  haveI : Fact p.Prime := ⟨hp⟩
  have heq : (toW p A B).Equation (x : ZMod p) (y : ZMod p) :=
    toW_equation hv.2.2
  have hns : (toW p A B).Nonsingular (x : ZMod p) (y : ZMod p) :=
    (toW p A B).nonsingular_of_Δ_ne_zero heq (toW_delta_ne_zero hodd hd)
  have hrep : Reps p A B (.affine x y) (.some hns) :=
    .affine x y hv.1 hv.2.1 hns
  have h₁ := reps_naiveMul hodd hrep k
  have h₂ := reps_binMulAux hodd k k (.affine x y) .identity (.some hns) 0
    (le_refl k) hrep .identity
  rw [zero_add] at h₂
  exact reps_inj h₁ h₂ rfl

/-- Claim C1 counterexample: over `GF(2)` the valid point `(0, 1)` of
`y² = x³ + x + 1` satisfies `naive 4·P = (1, 0)` but
`binary-expansion 4·P = Identity`: the tangent denominator `2y` vanishes
mod 2 and the Fermat division `0^(p-2) = 0^0 = 1` silently produces a wrong
slope, so the two algorithms diverge. -/
theorem naive_mul_ne_binary_expansion_mul_char_two :
    validAffine 2 1 1 0 1 ∧
    naiveMul 2 1 (.affine 0 1) 4 ≠ binMul 2 1 (.affine 0 1) 4 := by
  decide

/-- Witness for C1 (amended): on the toy curve `y² = x³ + 7` over `GF(223)`
with generator `(47, 71)` and scalar `5`, the two algorithms agree. -/
theorem naive_mul_eq_binary_expansion_mul_witness :
    naiveMul 223 0 (.affine 47 71) 5 = binMul 223 0 (.affine 47 71) 5 :=
  naive_mul_eq_binary_expansion_mul 223 0 7 47 71 5 (by norm_num)
    (by norm_num) (by decide) (by decide)

end BitcoinRs
